import Mathlib

/-!
Verification of the SQF bytecode compiler backend
(src/libs/sqf/src/compiler/mod.rs).

The compiler is embedded shallowly:

* Machine integers are embedded as Nat with explicit reductions modulo
  2 ^ 16 or 2 ^ 32 where the Rust code casts (the entry-point index cast
  to u16, the offset cast to u32, the line cast to u16).  The u16
  try_into conversions are embedded as explicit bound checks.
* The mutable compilation Context threaded by mutable reference through
  the Rust functions becomes explicit state passing: every function
  takes the incoming Context and returns the updated one.
* The append-only instruction vector that the Rust functions receive by
  mutable reference and only ever push into is embedded by returning the
  list of instructions emitted by the call; the caller concatenates the
  pieces in emission order, which is exactly the order of the pushes.
* Fallible code returns Except.  Rust panics (the unwrap calls in
  location_to_source and the unreachable arm of
  Expression.compile_instructions) are a separate outcome from compile
  errors, so the two cannot be confused.
* The Scalar payload of Number literals and Scalar constants is a
  floating point number in the source; it is embedded as Int because the
  properties verified here use only small integer literals and the
  structural equality of the pool, never float arithmetic.
* The companion serializer module, the statement tree types of the crate
  root, the Processed handle and the command database are repository
  code that is not part of the sampled sources; they are modelled from
  the specification, marked below.
-/

/-- Modelled from the spec: a half-open source span of the processed
file, standing in for the std::ops::Range of byte offsets carried by
statements and expressions. -/
structure SRange where
  start : Nat
  stop : Nat
deriving DecidableEq, Repr

/-- Modelled from the spec: the serializer module is absent from the
sampled sources; SourceInfo is the diagnostic record with the byte
offset in the processed source (u32), the index into the file-name
table (u16) and the 1-based line in the original file (u16). -/
structure SourceInfo where
  offset : Nat
  file_index : Nat
  file_line : Nat
deriving DecidableEq, Repr

/-- Modelled from the spec: the emitted opcode type of the absent
serializer module, with exactly the variants constructed by the
compiler. -/
inductive Instruction where
  | EndStatement
  | Push (constantIndex : Nat)
  | CallUnary (nameIndex : Nat) (source : SourceInfo)
  | CallBinary (nameIndex : Nat) (source : SourceInfo)
  | CallNular (nameIndex : Nat) (source : SourceInfo)
  | AssignTo (nameIndex : Nat) (source : SourceInfo)
  | AssignToLocal (nameIndex : Nat) (source : SourceInfo)
  | GetVariable (nameIndex : Nat) (source : SourceInfo)
  | MakeArray (count : Nat) (source : SourceInfo)
deriving DecidableEq, Repr

/-- Modelled from the spec: a compiled instruction sequence of the
absent serializer module, the contents list plus the constant-pool index
of the String constant holding the source text of the block. -/
structure Instructions where
  contents : List Instruction
  source_string_index : Nat
deriving DecidableEq, Repr

mutual
/-- Modelled from the spec: the constant-pool entry type of the absent
serializer module; constants are compared structurally for
deduplication.  Nested constant arrays use the companion list type
ConstList so that equality and recursion stay structural. -/
inductive Constant where
  | Code (instructions : Instructions)
  | String (string : String)
  | Scalar (scalar : Int)
  | Boolean (boolean : Bool)
  | Array (array : ConstList)
  | NularCommand (name : String)
deriving DecidableEq, Repr
/-- Modelled from the spec: a list of constants (the element list of an
Array constant). -/
inductive ConstList where
  | nil
  | cons (head : Constant) (tail : ConstList)
deriving DecidableEq, Repr
end

/-- Modelled from the spec: the crate-root nular command value, a name
together with the Command Grammar flag telling whether the command is a
compile-time constant. -/
structure NularCommand where
  name : String
  constant : Bool
deriving DecidableEq, Repr

/-- Name accessor matching the as_str method used by the compiler. -/
def NularCommand.as_str (c : NularCommand) : String := c.name

/-- Constant-command flag matching the is_constant method used by the
compiler. -/
def NularCommand.is_constant (c : NularCommand) : Bool := c.constant

/-- Modelled from the spec: the crate-root unary command value; only its
name reaches the compiler. -/
structure UnaryCommand where
  name : String
deriving DecidableEq, Repr

/-- Name accessor matching the as_str method used by the compiler. -/
def UnaryCommand.as_str (c : UnaryCommand) : String := c.name

/-- Modelled from the spec: the crate-root binary command value; only
its name reaches the compiler. -/
structure BinaryCommand where
  name : String
deriving DecidableEq, Repr

/-- Name accessor matching the as_str method used by the compiler. -/
def BinaryCommand.as_str (c : BinaryCommand) : String := c.name

mutual
/-- Modelled from the spec: the crate-root statement type consumed by
the compiler, one of Assign-Global, Assign-Local and Bare-Expression. -/
inductive Statement where
  | AssignGlobal (name : String) (expression : Expression) (location : SRange)
  | AssignLocal (name : String) (expression : Expression) (location : SRange)
  | Expression (expression : Expression)
deriving DecidableEq, Repr
/-- Modelled from the spec: the crate-root expression type consumed by
the compiler.  Number wraps the Scalar payload, embedded as Int. -/
inductive Expression where
  | Array (elements : ExprList) (location : SRange)
  | NularCommand (command : NularCommand) (location : SRange)
  | UnaryCommand (command : UnaryCommand) (expr : Expression) (location : SRange)
  | BinaryCommand (command : BinaryCommand) (expr1 : Expression) (expr2 : Expression)
      (location : SRange)
  | Variable (name : String) (location : SRange)
  | Code (code : Statements)
  | String (string : String)
  | Number (number : Int)
  | Boolean (boolean : Bool)
deriving DecidableEq, Repr
/-- Modelled from the spec: a list of expressions (the element list of
an array literal). -/
inductive ExprList where
  | nil
  | cons (head : Expression) (tail : ExprList)
deriving DecidableEq, Repr
/-- Modelled from the spec: a statements block, the content list plus
the source text of the block. -/
inductive Statements where
  | mk (content : StmtList) (source : String)
deriving DecidableEq, Repr
/-- Modelled from the spec: a list of statements. -/
inductive StmtList where
  | nil
  | cons (head : Statement) (tail : StmtList)
deriving DecidableEq, Repr
end

/-- Content accessor of a statements block. -/
def Statements.content : Statements → StmtList
  | .mk c _ => c

/-- Source-text accessor of a statements block. -/
def Statements.source : Statements → String
  | .mk _ s => s

/-- Length of an expression list, matching Vec::len. -/
def ExprList.length : ExprList → Nat
  | .nil => 0
  | .cons _ t => 1 + t.length

/-- Length of a constant list. -/
def ConstList.length : ConstList → Nat
  | .nil => 0
  | .cons _ t => 1 + t.length

/-- The compile error enum of the compiler module: the capacity error
for lists longer than 2 ^ 16 and the invalid-name error carrying the
offending text. -/
inductive CompileError where
  | ListTooLong
  | InvalidName (name : String)
deriving DecidableEq, Repr

/-- Outcome of a compiler call: a CompileError, or a Rust panic (the
unwrap calls in location_to_source and the unreachable arm of
expression lowering), kept distinct from ordinary errors. -/
inductive COutcome where
  | err (e : CompileError)
  | panicked
deriving DecidableEq, Repr

/-- Result type of the compiler functions. -/
abbrev CResult (α : Type) := Except COutcome α

/-- The compilation context: the shared constant pool and name pool of
one whole-program compile. -/
structure Context where
  constants_cache : List Constant
  names_cache : List String
deriving DecidableEq, Repr

/-- Modelled from the spec: the Processed handle of the preprocessing
layer (repository code absent from the sampled sources), exposing the
ordered list of known source file names and the offset-to-original
mapping, which returns the original file and 1-based line for a mapped
offset and nothing for an unmapped one. -/
structure Processed where
  sources : List String
  mapping : Nat → Option (String × Nat)

/-- Modelled from the spec: the Command Grammar (the command database of
the parser, repository code absent from the sampled sources), injected
as a read-only validity predicate on canonicalized identifiers. -/
structure Database where
  is_valid_command : String → Bool

/-- Position of the first element equal to the given value, matching
Iterator::position over a Vec with structural equality. -/
def listPosition {α : Type} [DecidableEq α] (value : α) : List α → Option Nat
  | [] => none
  | x :: xs => if x = value then some 0 else (listPosition value xs).map (· + 1)

/-- ASCII lowercasing of a string, matching str::to_ascii_lowercase;
Char.toLower lowers exactly the ASCII uppercase letters. -/
def to_ascii_lowercase (s : String) : String := ⟨s.data.map Char.toLower⟩

/-- The deduplicating interning primitive of the compiler: return the
position of a structurally equal existing entry, otherwise append the
value; the resulting index must fit in a u16, otherwise the capacity
error is reported. -/
def add_or_get_index {α : Type} [DecidableEq α] (collection : List α) (value : α) :
    CResult (Nat × List α) :=
  match listPosition value collection with
  | some i => .ok (i, collection)
  | none =>
    let value_index := collection.length
    let collection' := collection ++ [value]
    if value_index < 65536 then .ok (value_index, collection')
    else .error (.err CompileError.ListTooLong)

/-- Canonicalization of a name: ASCII-lowercase it, accept it when the
Command Grammar recognizes the lowered form, otherwise fail with the
invalid-name error carrying the original text. -/
def try_normalize_name (db : Database) (name : String) : CResult String :=
  let name_lower := to_ascii_lowercase name
  if db.is_valid_command name_lower then .ok name_lower
  else .error (.err (CompileError.InvalidName name))

/-- Interning a constant into the shared constant pool. -/
def Context.add_constant (ctx : Context) (constant : Constant) : CResult (Nat × Context) :=
  match add_or_get_index ctx.constants_cache constant with
  | .error e => .error e
  | .ok (i, cs) => .ok (i, { ctx with constants_cache := cs })

/-- Interning a name into the shared name pool, after canonicalizing it
with try_normalize_name. -/
def Context.add_name (db : Database) (ctx : Context) (name : String) : CResult (Nat × Context) :=
  match try_normalize_name db name with
  | .error e => .error e
  | .ok normalized =>
    match add_or_get_index ctx.names_cache normalized with
    | .error e => .error e
    | .ok (i, ns) => .ok (i, { ctx with names_cache := ns })

/-- Resolution of a span to a SourceInfo: look the start offset up in
the mapper (unwrap panics when unmapped), locate the mapped file in the
source list (unwrap panics when absent, and the index conversion to u16
panics when out of range), truncate the offset to u32 and the line to
u16. -/
def location_to_source (processed : Processed) (location : SRange) : CResult SourceInfo :=
  match processed.mapping location.start with
  | none => .error .panicked
  | some (path, line) =>
    match listPosition path processed.sources with
    | none => .error .panicked
    | some i =>
      if i < 65536 then .ok ⟨location.start % 4294967296, i, line % 65536⟩
      else .error .panicked

mutual

/-- Lowering of a statements block: compile each statement in order into
one instruction list, then intern the String constant holding the source
text of the block and record its index. -/
def Statements.compile_to_instructions (self : Statements) (db : Database)
    (processed : Processed) (ctx : Context) : CResult (Instructions × Context) :=
  match self with
  | .mk content source =>
    match stmtsLoop db processed content ctx with
    | .error e => .error e
    | .ok (instructions, ctx) =>
      match ctx.add_constant (Constant.String source) with
      | .error e => .error e
      | .ok (source_string_index, ctx) =>
        .ok (⟨instructions, source_string_index⟩, ctx)
termination_by (sizeOf self, 0)

/-- The statement loop of compile_to_instructions, concatenating the
instructions emitted by each statement in order. -/
def stmtsLoop (db : Database) (processed : Processed) (content : StmtList)
    (ctx : Context) : CResult (List Instruction × Context) :=
  match content with
  | .nil => .ok ([], ctx)
  | .cons statement rest =>
    match statement.compile_instructions db processed ctx with
    | .error e => .error e
    | .ok (instructions, ctx) =>
      match stmtsLoop db processed rest ctx with
      | .error e => .error e
      | .ok (instructions', ctx) => .ok (instructions ++ instructions', ctx)
termination_by (sizeOf content, 0)

/-- Lowering of one statement: an EndStatement marker first, then for
assignments the right-hand expression, the interned target name and the
assignment instruction with the source info of the statement span; a
bare expression lowers just the expression. -/
def Statement.compile_instructions (self : Statement) (db : Database)
    (processed : Processed) (ctx : Context) : CResult (List Instruction × Context) :=
  match (match self with
    | .AssignGlobal name expression location =>
      match expression.compile_instructions db processed ctx with
      | .error e => .error e
      | .ok (instructions, ctx) =>
        match ctx.add_name db name with
        | .error e => .error e
        | .ok (name_index, ctx) =>
          match location_to_source processed location with
          | .error e => .error e
          | .ok si => .ok (instructions ++ [Instruction.AssignTo name_index si], ctx)
    | .AssignLocal name expression location =>
      match expression.compile_instructions db processed ctx with
      | .error e => .error e
      | .ok (instructions, ctx) =>
        match ctx.add_name db name with
        | .error e => .error e
        | .ok (name_index, ctx) =>
          match location_to_source processed location with
          | .error e => .error e
          | .ok si => .ok (instructions ++ [Instruction.AssignToLocal name_index si], ctx)
    | .Expression expression =>
      expression.compile_instructions db processed ctx : CResult (List Instruction × Context)) with
  | .error e => .error e
  | .ok (instructions, ctx) => .ok (Instruction.EndStatement :: instructions, ctx)
termination_by (sizeOf self, 0)

/-- Lowering of one expression: attempt constant folding first and emit
a single Push of the interned constant on success; otherwise emit the
shape-directed instruction sequence. -/
def Expression.compile_instructions (self : Expression) (db : Database)
    (processed : Processed) (ctx : Context) : CResult (List Instruction × Context) :=
  (self.compile_constant db processed ctx).bind fun
  | (some constant, ctx) =>
    match ctx.add_constant constant with
    | .error e => .error e
    | .ok (constant_index, ctx) => .ok ([Instruction.Push constant_index], ctx)
  | (none, ctx) =>
    match self with
    | .Array array location =>
      if array.length < 65536 then
        match exprLoop db processed array ctx with
        | .error e => .error e
        | .ok (instructions, ctx) =>
          match location_to_source processed location with
          | .error e => .error e
          | .ok si => .ok (instructions ++ [Instruction.MakeArray array.length si], ctx)
      else .error (.err CompileError.ListTooLong)
    | .NularCommand command location =>
      match ctx.add_name db command.as_str with
      | .error e => .error e
      | .ok (name_index, ctx) =>
        match location_to_source processed location with
        | .error e => .error e
        | .ok si => .ok ([Instruction.CallNular name_index si], ctx)
    | .UnaryCommand command expr location =>
      match expr.compile_instructions db processed ctx with
      | .error e => .error e
      | .ok (instructions, ctx) =>
        match ctx.add_name db command.as_str with
        | .error e => .error e
        | .ok (name_index, ctx) =>
          match location_to_source processed location with
          | .error e => .error e
          | .ok si => .ok (instructions ++ [Instruction.CallUnary name_index si], ctx)
    | .BinaryCommand command expr1 expr2 location =>
      match expr1.compile_instructions db processed ctx with
      | .error e => .error e
      | .ok (instructions, ctx) =>
        match expr2.compile_instructions db processed ctx with
        | .error e => .error e
        | .ok (instructions', ctx) =>
          match ctx.add_name db command.as_str with
          | .error e => .error e
          | .ok (name_index, ctx) =>
            match location_to_source processed location with
            | .error e => .error e
            | .ok si =>
              .ok (instructions ++ instructions' ++ [Instruction.CallBinary name_index si], ctx)
    | .Variable name location =>
      match ctx.add_name db name with
      | .error e => .error e
      | .ok (name_index, ctx) =>
        match location_to_source processed location with
        | .error e => .error e
        | .ok si => .ok ([Instruction.GetVariable name_index si], ctx)
    | .Code _ | .String _ | .Number _ | .Boolean _ => .error .panicked
termination_by (sizeOf self, 1)

/-- The element loop of non-foldable array lowering, concatenating the
instructions emitted by each element left to right. -/
def exprLoop (db : Database) (processed : Processed) (array : ExprList)
    (ctx : Context) : CResult (List Instruction × Context) :=
  match array with
  | .nil => .ok ([], ctx)
  | .cons array_expr rest =>
    match array_expr.compile_instructions db processed ctx with
    | .error e => .error e
    | .ok (instructions, ctx) =>
      match exprLoop db processed rest ctx with
      | .error e => .error e
      | .ok (instructions', ctx) => .ok (instructions ++ instructions', ctx)
termination_by (sizeOf array, 0)

/-- Constant folding of one expression: literals fold directly, a code
block compiles recursively and always folds, an array folds only when
every element folds, a nular command folds only when flagged constant
by the grammar; everything else does not fold. -/
def Expression.compile_constant (self : Expression) (db : Database)
    (processed : Processed) (ctx : Context) : CResult (Option Constant × Context) :=
  match self with
  | .Code statements =>
    match statements.compile_to_instructions db processed ctx with
    | .error e => .error e
    | .ok (instructions, ctx) => .ok (some (Constant.Code instructions), ctx)
  | .String string => .ok (some (Constant.String string), ctx)
  | .Number number => .ok (some (Constant.Scalar number), ctx)
  | .Boolean boolean => .ok (some (Constant.Boolean boolean), ctx)
  | .Array array _ =>
    match constFoldLoop db processed array ctx with
    | .error e => .error e
    | .ok (some constants, ctx) => .ok (some (Constant.Array constants), ctx)
    | .ok (none, ctx) => .ok (none, ctx)
  | .NularCommand command _ =>
    if command.is_constant then
      match try_normalize_name db command.name with
      | .error e => .error e
      | .ok normalized => .ok (some (Constant.NularCommand normalized), ctx)
    else .ok (none, ctx)
  | .UnaryCommand _ _ _ => .ok (none, ctx)
  | .BinaryCommand _ _ _ _ => .ok (none, ctx)
  | .Variable _ _ => .ok (none, ctx)
termination_by (sizeOf self, 0)

/-- The element collection of array folding: fold each element in
order, stopping at the first error and, with the state reached so far,
at the first element that does not fold. -/
def constFoldLoop (db : Database) (processed : Processed) (array : ExprList)
    (ctx : Context) : CResult (Option ConstList × Context) :=
  match array with
  | .nil => .ok (some .nil, ctx)
  | .cons value rest =>
    match value.compile_constant db processed ctx with
    | .error e => .error e
    | .ok (none, ctx) => .ok (none, ctx)
    | .ok (some c, ctx) =>
      match constFoldLoop db processed rest ctx with
      | .error e => .error e
      | .ok (none, ctx) => .ok (none, ctx)
      | .ok (some cs, ctx) => .ok (some (.cons c cs), ctx)
termination_by (sizeOf array, 0)

end

/-- Modelled from the spec: the final artifact of the absent serializer
module, with the entry-point index, the pool-compression flag, the
constant pool, the name pool and the file-name table. -/
structure Compiled where
  entry_point : Nat
  constants_cache_compression : Bool
  constants_cache : List Constant
  names_cache : List String
  file_names : List String
deriving DecidableEq, Repr

/-- The whole-program compile: lower the statements with a fresh
context, record the pool length as the entry-point index truncated to
u16, push the entry-point Code constant onto the pool without interning
it, and copy the file-name list of the Processed handle. -/
def Statements.compile (self : Statements) (db : Database) (processed : Processed) :
    CResult Compiled :=
  match self.compile_to_instructions db processed ⟨[], []⟩ with
  | .error e => .error e
  | .ok (entrypoint_code, ctx) =>
    let entrypoint_index := ctx.constants_cache.length % 65536
    .ok { entry_point := entrypoint_index
          constants_cache_compression := true
          constants_cache := ctx.constants_cache ++ [Constant.Code entrypoint_code]
          names_cache := ctx.names_cache
          file_names := processed.sources }

/-! Helper lemmas about the interning primitive. -/

theorem listPosition_eq_none {α : Type} [DecidableEq α] {v : α} :
    ∀ {l : List α}, listPosition v l = none ↔ v ∉ l
  | [] => by simp [listPosition]
  | x :: xs => by
    by_cases hx : x = v
    · subst hx
      simp [listPosition]
    · simp only [listPosition, if_neg hx, Option.map_eq_none', List.mem_cons]
      rw [listPosition_eq_none (l := xs)]
      constructor
      · intro h hv
        rcases hv with hv | hv
        · exact hx hv.symm
        · exact h hv
      · intro h hv
        exact h (Or.inr hv)

theorem listPosition_get {α : Type} [DecidableEq α] {v : α} :
    ∀ {l : List α} {i : Nat}, listPosition v l = some i → i < l.length ∧ l[i]? = some v := by
  intro l
  induction l with
  | nil => intro i h; simp [listPosition] at h
  | cons x xs ih =>
    intro i h
    by_cases hx : x = v
    · rw [listPosition, if_pos hx] at h
      cases h
      simp [hx]
    · rw [listPosition, if_neg hx] at h
      rcases Option.map_eq_some'.mp h with ⟨j, hj, rfl⟩
      obtain ⟨hlt, hget⟩ := ih hj
      constructor
      · simpa using Nat.succ_lt_succ hlt
      · simpa using hget

theorem listPosition_append_self {α : Type} [DecidableEq α] {v : α} :
    ∀ {l : List α}, v ∉ l → listPosition v (l ++ [v]) = some l.length := by
  intro l
  induction l with
  | nil =>
    intro _
    simp [listPosition]
  | cons x xs ih =>
    intro h
    have hx : x ≠ v := fun hxv => h (by simp [hxv])
    have hxs : v ∉ xs := fun hv => h (by simp [hv])
    rw [List.cons_append, listPosition, if_neg hx, ih hxs]
    simp [Nat.add_comm]

theorem add_or_get_index_found {α : Type} [DecidableEq α] {v : α} {l : List α} {i : Nat}
    (h : listPosition v l = some i) : add_or_get_index l v = .ok (i, l) := by
  simp [add_or_get_index, h]

theorem add_or_get_index_new {α : Type} [DecidableEq α] {v : α} {l : List α}
    (h : v ∉ l) (hlen : l.length < 65536) :
    add_or_get_index l v = .ok (l.length, l ++ [v]) := by
  simp [add_or_get_index, listPosition_eq_none.mpr h, hlen]

theorem add_or_get_index_capacity {α : Type} [DecidableEq α] {v : α} {l : List α}
    (h : v ∉ l) (hlen : ¬ l.length < 65536) :
    add_or_get_index l v = .error (.err CompileError.ListTooLong) := by
  simp [add_or_get_index, listPosition_eq_none.mpr h, hlen]

theorem add_or_get_index_ok {α : Type} [DecidableEq α] {v : α} {l l' : List α} {i : Nat}
    (h : add_or_get_index l v = .ok (i, l')) :
    l'[i]? = some v ∧ i < l'.length ∧
      add_or_get_index l' v = .ok (i, l') ∧
      (v ∉ l → i = l.length ∧ l' = l ++ [v]) ∧ (v ∈ l → l' = l) := by
  by_cases hmem : v ∈ l
  · have hpos : listPosition v l ≠ none := fun hn => (listPosition_eq_none.mp hn) hmem
    obtain ⟨j, hj⟩ := Option.ne_none_iff_exists'.mp hpos
    rw [add_or_get_index_found hj] at h
    simp only [Except.ok.injEq, Prod.mk.injEq] at h
    obtain ⟨rfl, rfl⟩ := h
    obtain ⟨hlt, hget⟩ := listPosition_get hj
    exact ⟨hget, hlt, add_or_get_index_found hj, fun hn => (hn hmem).elim, fun _ => rfl⟩
  · by_cases hlen : l.length < 65536
    · rw [add_or_get_index_new hmem hlen] at h
      simp only [Except.ok.injEq, Prod.mk.injEq] at h
      obtain ⟨rfl, rfl⟩ := h
      refine ⟨?_, by simp, ?_, fun _ => ⟨rfl, rfl⟩, fun hv => (hmem hv).elim⟩
      · simp
      · exact add_or_get_index_found (listPosition_append_self hmem)
    · rw [add_or_get_index_capacity hmem hlen] at h
      cases h

/-! Infrastructure for the entry-point boundary analysis: a program of
distinct number statements that fills the constant pool. -/

/-- The pool of the first n scalar constants, in interning order. -/
def scalarsUpTo (n : Nat) : List Constant :=
  (List.range n).map fun k => Constant.Scalar (Int.ofNat k)

theorem scalarsUpTo_length (n : Nat) : (scalarsUpTo n).length = n := by
  simp [scalarsUpTo]

theorem scalarsUpTo_succ (n : Nat) :
    scalarsUpTo (n + 1) = scalarsUpTo n ++ [Constant.Scalar (Int.ofNat n)] := by
  simp [scalarsUpTo, List.range_succ]

theorem scalar_not_mem_scalarsUpTo (n : Nat) :
    Constant.Scalar (Int.ofNat n) ∉ scalarsUpTo n := by
  intro hmem
  simp only [scalarsUpTo, List.mem_map, List.mem_range, Constant.Scalar.injEq,
    Int.ofNat.injEq] at hmem
  obtain ⟨x, hx, rfl⟩ := hmem
  omega

theorem string_not_mem_scalarsUpTo (s : String) (n : Nat) :
    Constant.String s ∉ scalarsUpTo n := by
  intro hmem
  simp only [scalarsUpTo, List.mem_map] at hmem
  obtain ⟨x, _, hx⟩ := hmem
  cases hx

/-- A run of n bare number statements with values start, start + 1, ... -/
def numberStmts : Nat → Nat → StmtList
  | _, 0 => .nil
  | start, n + 1 =>
    .cons (Statement.Expression (Expression.Number (Int.ofNat start)))
      (numberStmts (start + 1) n)

theorem compile_number_stmt (db : Database) (p : Processed) (k : Int) (ctx : Context)
    (hnew : Constant.Scalar k ∉ ctx.constants_cache)
    (hlen : ctx.constants_cache.length < 65536) :
    (Statement.Expression (Expression.Number k)).compile_instructions db p ctx =
      .ok ([Instruction.EndStatement, Instruction.Push ctx.constants_cache.length],
        ⟨ctx.constants_cache ++ [Constant.Scalar k], ctx.names_cache⟩) := by
  simp [Statement.compile_instructions, Expression.compile_instructions,
    Expression.compile_constant, Except.bind, Context.add_constant,
    add_or_get_index_new hnew hlen]

theorem stmtsLoop_numberStmts (db : Database) (p : Processed) :
    ∀ (n start : Nat) (ns : List String), start + n ≤ 65536 →
    ∃ is, stmtsLoop db p (numberStmts start n) ⟨scalarsUpTo start, ns⟩ =
      .ok (is, ⟨scalarsUpTo (start + n), ns⟩) := by
  intro n
  induction n with
  | zero =>
    intro start ns _
    exact ⟨[], by simp [numberStmts, stmtsLoop]⟩
  | succ n ih =>
    intro start ns h
    obtain ⟨is2, h2⟩ := ih (start + 1) ns (by omega)
    have harith : start + 1 + n = start + (n + 1) := by omega
    rw [harith] at h2
    have hnew : Constant.Scalar (Int.ofNat start) ∉ scalarsUpTo start :=
      scalar_not_mem_scalarsUpTo start
    have hlen : (scalarsUpTo start).length < 65536 := by
      rw [scalarsUpTo_length]; omega
    have hstep := compile_number_stmt db p (Int.ofNat start) ⟨scalarsUpTo start, ns⟩ hnew hlen
    refine ⟨Instruction.EndStatement ::
      Instruction.Push (scalarsUpTo start).length :: is2, ?_⟩
    rw [numberStmts]
    rw [stmtsLoop, hstep]
    rw [show (⟨scalarsUpTo start ++ [Constant.Scalar (Int.ofNat start)], ns⟩ : Context) =
      ⟨scalarsUpTo (start + 1), ns⟩ from by rw [scalarsUpTo_succ]]
    simp [h2]

/-- A grammar that accepts nothing; number-only programs never consult
it. -/
def dbNone : Database := ⟨fun _ => false⟩

/-- A Processed handle with no source files and no mappings;
constant-only programs never consult it. -/
def procNone : Processed := ⟨[], fun _ => none⟩

/-- Decomposition of a whole-block lowering into its statement loop and
the interning of the source-text constant, stated with an abstract
pool. -/
theorem compile_to_instructions_general (db : Database) (p : Processed)
    (content : StmtList) (source : String) (is : List Instruction)
    (cs cs' : List Constant) (ns : List String) (idx : Nat)
    (hloop : stmtsLoop db p content ⟨[], []⟩ = .ok (is, ⟨cs, ns⟩))
    (hadd : add_or_get_index cs (Constant.String source) = .ok (idx, cs')) :
    (Statements.mk content source).compile_to_instructions db p ⟨[], []⟩ =
      .ok (⟨is, idx⟩, ⟨cs', ns⟩) := by
  rw [Statements.compile_to_instructions, hloop]
  unfold Context.add_constant
  dsimp only
  rw [hadd]

/-- Shape of a successful whole-program compile, stated with an
abstract pool. -/
theorem compile_general (db : Database) (p : Processed)
    (content : StmtList) (source : String) (is : List Instruction)
    (cs cs' : List Constant) (ns : List String) (idx : Nat)
    (hloop : stmtsLoop db p content ⟨[], []⟩ = .ok (is, ⟨cs, ns⟩))
    (hadd : add_or_get_index cs (Constant.String source) = .ok (idx, cs')) :
    Statements.compile (Statements.mk content source) db p =
      .ok ⟨cs'.length % 65536, true, cs' ++ [Constant.Code ⟨is, idx⟩], ns,
        p.sources⟩ := by
  rw [Statements.compile,
    compile_to_instructions_general db p content source is cs cs' ns idx hloop hadd]

/-- C1, counterexample: a successful compile of 65535 distinct number
statements interns 65536 constants, so the u16 cast truncates the
entry-point index to 0 while the final pool has 65537 entries; the
entry-point index does not equal the pool length minus one. -/
theorem claim1_counterexample :
    ∃ c, Statements.compile (Statements.mk (numberStmts 0 65535) "") dbNone procNone =
        .ok c ∧
      c.entry_point = 0 ∧ c.constants_cache.length = 65537 ∧
      c.entry_point ≠ c.constants_cache.length - 1 := by
  obtain ⟨is, hloop⟩ := stmtsLoop_numberStmts dbNone procNone 65535 0 [] (by omega)
  rw [show scalarsUpTo 0 = [] from rfl] at hloop
  norm_num at hloop
  have hlen : (scalarsUpTo 65535).length < 65536 := by rw [scalarsUpTo_length]; omega
  have hadd : add_or_get_index (scalarsUpTo 65535) (Constant.String "") =
      .ok ((scalarsUpTo 65535).length, scalarsUpTo 65535 ++ [Constant.String ""]) :=
    add_or_get_index_new (string_not_mem_scalarsUpTo "" 65535) hlen
  rw [scalarsUpTo_length] at hadd
  have hcg := compile_general dbNone procNone (numberStmts 0 65535) "" is
    (scalarsUpTo 65535) (scalarsUpTo 65535 ++ [Constant.String ""]) [] 65535 hloop hadd
  have hw : (scalarsUpTo 65535 ++ [Constant.String ""]).length = 65536 := by
    rw [List.length_append, scalarsUpTo_length]
    norm_num
  rw [hw, show procNone.sources = [] from rfl] at hcg
  norm_num at hcg
  refine ⟨_, hcg, rfl, ?_, ?_⟩
  · rw [List.length_append, scalarsUpTo_length]
    norm_num
  · rw [List.length_append, scalarsUpTo_length]
    norm_num

/-- C1, amended: for every successful compile whose final constant pool
has at most 2 ^ 16 entries (equivalently, whose interned pool leaves the
u16 entry-point cast exact), the entry-point index equals the pool
length minus one, and the entry-point Code constant is the last entry
appended, its index being the pool length immediately before its own
insertion. -/
theorem claim1_entry_point (db : Database) (p : Processed) (s : Statements) (c : Compiled)
    (h : s.compile db p = .ok c) (hlen : c.constants_cache.length ≤ 65536) :
    ∃ pre body, c.constants_cache = pre ++ [Constant.Code body] ∧
      c.entry_point = pre.length ∧ c.entry_point = c.constants_cache.length - 1 := by
  rw [Statements.compile] at h
  cases hcti : s.compile_to_instructions db p ⟨[], []⟩ with
  | error e => rw [hcti] at h; cases h
  | ok r =>
    obtain ⟨ins, ctx⟩ := r
    rw [hcti] at h
    simp only [Except.ok.injEq] at h
    subst h
    have hsmall : ctx.constants_cache.length < 65536 := by
      simp only [Compiled.mk.injEq, List.length_append, List.length_singleton] at hlen ⊢
      omega
    refine ⟨ctx.constants_cache, ins, rfl, ?_, ?_⟩
    · simp [Nat.mod_eq_of_lt hsmall]
    · simp [Nat.mod_eq_of_lt hsmall]

/-- C1, witness: the amended entry-point invariant applied to the
compile of the empty program. -/
theorem claim1_witness :
    ∃ pre body,
      (⟨1, true, [Constant.String "", Constant.Code ⟨[], 0⟩], [], []⟩ :
          Compiled).constants_cache = pre ++ [Constant.Code body] ∧
      (⟨1, true, [Constant.String "", Constant.Code ⟨[], 0⟩], [], []⟩ :
          Compiled).entry_point = pre.length ∧
      (⟨1, true, [Constant.String "", Constant.Code ⟨[], 0⟩], [], []⟩ :
          Compiled).entry_point =
        (⟨1, true, [Constant.String "", Constant.Code ⟨[], 0⟩], [], []⟩ :
          Compiled).constants_cache.length - 1 := by
  have h : (Statements.mk .nil "").compile dbNone procNone =
      .ok ⟨1, true, [Constant.String "", Constant.Code ⟨[], 0⟩], [], []⟩ := by
    simp [Statements.compile, Statements.compile_to_instructions, stmtsLoop,
      Context.add_constant, add_or_get_index, listPosition, procNone]
  exact claim1_entry_point dbNone procNone _ _ h (by simp)

/-- C10: the whole-program compile appends the entry-point Code
constant with an unconditional push rather than through interning: for
every successful lowering, the final pool is the interned pool extended
by exactly that Code constant, with no deduplication search and no
capacity check on this final append, and the entry-point index is the
prior pool length reduced modulo 2 ^ 16. -/
theorem claim10_entry_append (db : Database) (p : Processed) (s : Statements)
    (ins : Instructions) (ctx : Context)
    (h : s.compile_to_instructions db p ⟨[], []⟩ = .ok (ins, ctx)) :
    s.compile db p = .ok ⟨ctx.constants_cache.length % 65536, true,
      ctx.constants_cache ++ [Constant.Code ins], ctx.names_cache, p.sources⟩ := by
  rw [Statements.compile, h]

/-- C10, witness: the unconditional entry-point append applied to a
one-line program. -/
theorem claim10_witness :
    (Statements.mk .nil "s").compile dbNone procNone =
      .ok ⟨1, true, [Constant.String "s", Constant.Code ⟨[], 0⟩], [], []⟩ := by
  have h : (Statements.mk .nil "s").compile_to_instructions dbNone procNone ⟨[], []⟩ =
      .ok (⟨[], 0⟩, ⟨[Constant.String "s"], []⟩) := by
    simp [Statements.compile_to_instructions, stmtsLoop, Context.add_constant,
      add_or_get_index, listPosition]
  have hc := claim10_entry_append dbNone procNone _ _ _ h
  simpa [procNone] using hc

/-- A replicated list of expressions, used to build arrays at the
capacity boundary. -/
def exprReplicate : Nat → Expression → ExprList
  | 0, _ => .nil
  | n + 1, e => .cons e (exprReplicate n e)

theorem exprReplicate_length (n : Nat) (e : Expression) :
    (exprReplicate n e).length = n := by
  induction n with
  | zero => rfl
  | succ n ih =>
    simp only [exprReplicate, ExprList.length, ih]
    omega

/-- C2: interning has an exact 16-bit boundary: with 65535 entries in
the pool a new distinct constant is accepted at index 65535 (the 65536th
entry), with 65536 entries a new distinct constant is rejected with the
capacity error, and lowering a non-foldable Array expression of 65536
elements fails with the same capacity error. -/
theorem claim2_capacity_boundary
    (v1 : Constant) (pool1 : List Constant) (hv1 : v1 ∉ pool1) (h1 : pool1.length = 65535)
    (v2 : Constant) (pool2 : List Constant) (hv2 : v2 ∉ pool2) (h2 : pool2.length = 65536)
    (db : Database) (p : Processed) (es : ExprList) (loc : SRange) (ctx ctx' : Context)
    (hfold : (Expression.Array es loc).compile_constant db p ctx = .ok (none, ctx'))
    (hlen : es.length = 65536) :
    add_or_get_index pool1 v1 = .ok (65535, pool1 ++ [v1]) ∧
    add_or_get_index pool2 v2 = .error (.err CompileError.ListTooLong) ∧
    (Expression.Array es loc).compile_instructions db p ctx =
      .error (.err CompileError.ListTooLong) := by
  refine ⟨?_, ?_, ?_⟩
  · have hx := add_or_get_index_new hv1 (by omega)
    rw [h1] at hx
    exact hx
  · exact add_or_get_index_capacity hv2 (by omega)
  · rw [Expression.compile_instructions, hfold]
    simp [Except.bind, hlen]

/-- C2, witness: the boundary applied to replicated pools of 65535 and
65536 entries and to an array of 65536 variable elements. -/
theorem claim2_witness :
    add_or_get_index (List.replicate 65535 (Constant.Boolean true)) (Constant.Boolean false) =
      .ok (65535, List.replicate 65535 (Constant.Boolean true) ++ [Constant.Boolean false]) ∧
    add_or_get_index (List.replicate 65536 (Constant.Boolean true)) (Constant.Boolean false) =
      .error (.err CompileError.ListTooLong) ∧
    (Expression.Array (exprReplicate 65536 (Expression.Variable "x" ⟨0, 0⟩))
        ⟨0, 0⟩).compile_instructions dbNone procNone ⟨[], []⟩ =
      .error (.err CompileError.ListTooLong) := by
  have hstep : exprReplicate 65536 (Expression.Variable "x" ⟨0, 0⟩) =
      .cons (Expression.Variable "x" ⟨0, 0⟩)
        (exprReplicate 65535 (Expression.Variable "x" ⟨0, 0⟩)) := by
    rw [show (65536 : Nat) = 65535 + 1 from by norm_num]
    rw [exprReplicate]
  have hfold : (Expression.Array (exprReplicate 65536 (Expression.Variable "x" ⟨0, 0⟩))
      ⟨0, 0⟩).compile_constant dbNone procNone ⟨[], []⟩ = .ok (none, ⟨[], []⟩) := by
    rw [hstep]
    simp only [Expression.compile_constant, constFoldLoop]
  exact claim2_capacity_boundary _ _
    (by rw [List.mem_replicate]; simp) (by rw [List.length_replicate]) _ _
    (by rw [List.mem_replicate]; simp) (by rw [List.length_replicate])
    dbNone procNone _ _ _ _ hfold (exprReplicate_length _ _)

/-- C3: interning deduplicates by structural equality: interning a
value returns the first structurally equal index, interning an equal
value again afterwards returns the same index with the pool unchanged,
the pool holds the value at that index, and an absent value is appended
at the old pool length. -/
theorem claim3_dedup (pool pool' : List Constant) (a b : Constant) (hab : a = b) (i : Nat)
    (h : add_or_get_index pool a = .ok (i, pool')) :
    add_or_get_index pool' b = .ok (i, pool') ∧ pool'[i]? = some a ∧
      (a ∉ pool → i = pool.length ∧ pool' = pool ++ [a]) := by
  subst hab
  obtain ⟨hget, _, hagain, hnew, _⟩ := add_or_get_index_ok h
  exact ⟨hagain, hget, hnew⟩

/-- C3, witness: deduplicating interning applied to a small concrete
pool. -/
theorem claim3_witness :
    add_or_get_index [Constant.Scalar 1, Constant.Scalar 2] (Constant.Scalar 2) =
      .ok (1, [Constant.Scalar 1, Constant.Scalar 2]) ∧
    [Constant.Scalar 1, Constant.Scalar 2][1]? = some (Constant.Scalar 2) ∧
    (Constant.Scalar 2 ∉ [Constant.Scalar 1] →
      1 = [Constant.Scalar 1].length ∧
        [Constant.Scalar 1, Constant.Scalar 2] =
          [Constant.Scalar 1] ++ [Constant.Scalar 2]) :=
  claim3_dedup [Constant.Scalar 1] [Constant.Scalar 1, Constant.Scalar 2]
    (Constant.Scalar 2) (Constant.Scalar 2) rfl 1 (by rfl)

/-- C4: compiling the statement assigning 1 + 2 to the global x, with
any grammar accepting + and x and any mapper resolving the two spans,
emits EndStatement, Push of constant 1, Push of constant 2, CallBinary
of name +, AssignTo of name x, with constant pool exactly 1 then 2 and
name pool exactly + then x, in order of first use. -/
theorem claim4_scenario (db : Database) (p : Processed) (locA locB : SRange)
    (siA siB : SourceInfo)
    (hplus : db.is_valid_command "+" = true)
    (hx : db.is_valid_command "x" = true)
    (hmA : location_to_source p locA = .ok siA)
    (hmB : location_to_source p locB = .ok siB) :
    (Statement.AssignGlobal "x"
      (Expression.BinaryCommand ⟨"+"⟩ (Expression.Number 1) (Expression.Number 2) locB)
      locA).compile_instructions db p ⟨[], []⟩ =
    .ok ([Instruction.EndStatement, Instruction.Push 0, Instruction.Push 1,
          Instruction.CallBinary 0 siB, Instruction.AssignTo 1 siA],
         ⟨[Constant.Scalar 1, Constant.Scalar 2], ["+", "x"]⟩) := by
  have hlplus : to_ascii_lowercase "+" = "+" := by decide
  have hlx : to_ascii_lowercase "x" = "x" := by decide
  simp [Statement.compile_instructions, Expression.compile_instructions,
    Expression.compile_constant, Except.bind, Context.add_constant, Context.add_name,
    try_normalize_name, add_or_get_index, listPosition, hlplus, hlx, hplus, hx,
    hmA, hmB, BinaryCommand.as_str]

/-- C4, witness: the scenario at a concrete grammar and mapper. -/
theorem claim4_witness :
    (Statement.AssignGlobal "x"
      (Expression.BinaryCommand ⟨"+"⟩ (Expression.Number 1) (Expression.Number 2) ⟨5, 6⟩)
      ⟨1, 2⟩).compile_instructions ⟨fun s => s == "+" || s == "x"⟩
        ⟨["f"], fun _ => some ("f", 3)⟩ ⟨[], []⟩ =
    .ok ([Instruction.EndStatement, Instruction.Push 0, Instruction.Push 1,
          Instruction.CallBinary 0 ⟨5, 0, 3⟩, Instruction.AssignTo 1 ⟨1, 0, 3⟩],
         ⟨[Constant.Scalar 1, Constant.Scalar 2], ["+", "x"]⟩) := by
  exact claim4_scenario ⟨fun s => s == "+" || s == "x"⟩ ⟨["f"], fun _ => some ("f", 3)⟩
    ⟨1, 2⟩ ⟨5, 6⟩ ⟨1, 0, 3⟩ ⟨5, 0, 3⟩ (by decide) (by decide)
    (by rfl) (by rfl)

/-- C5: array lowering is all-or-nothing: when the array expression
folds to a constant, lowering emits exactly one Push of the interned
constant and no MakeArray; when it does not fold, lowering compiles
every element left to right and appends a single MakeArray with the
element count; and the array folds to a constant Array exactly when the
sequential folding of its elements succeeds, so no partial fold is ever
used. -/
theorem claim5_fold_split (db : Database) (p : Processed)
    (es1 : ExprList) (loc1 : SRange) (ctxA ctxA1 : Context) (c : Constant)
    (hfold : (Expression.Array es1 loc1).compile_constant db p ctxA = .ok (some c, ctxA1))
    (es2 : ExprList) (loc2 : SRange) (ctxB ctxB1 : Context)
    (hnofold : (Expression.Array es2 loc2).compile_constant db p ctxB = .ok (none, ctxB1))
    (hlen : es2.length < 65536)
    (es3 : ExprList) (loc3 : SRange) (ctxC ctxC1 : Context) (cs : ConstList)
    (hsome : constFoldLoop db p es3 ctxC = .ok (some cs, ctxC1))
    (es4 : ExprList) (loc4 : SRange) (ctxD ctxD1 : Context)
    (hnone : constFoldLoop db p es4 ctxD = .ok (none, ctxD1)) :
    ((Expression.Array es1 loc1).compile_instructions db p ctxA =
      match Context.add_constant ctxA1 c with
      | .error e => .error e
      | .ok (i, ctx2) => .ok ([Instruction.Push i], ctx2)) ∧
    ((Expression.Array es2 loc2).compile_instructions db p ctxB =
      match exprLoop db p es2 ctxB1 with
      | .error e => .error e
      | .ok (is, ctx2) =>
        match location_to_source p loc2 with
        | .error e => .error e
        | .ok si => .ok (is ++ [Instruction.MakeArray es2.length si], ctx2)) ∧
    (Expression.Array es3 loc3).compile_constant db p ctxC =
      .ok (some (Constant.Array cs), ctxC1) ∧
    (Expression.Array es4 loc4).compile_constant db p ctxD = .ok (none, ctxD1) := by
  refine ⟨?_, ?_, ?_, ?_⟩
  · rw [Expression.compile_instructions, hfold]
    simp only [Except.bind]
  · rw [Expression.compile_instructions, hnofold]
    simp only [Except.bind, if_pos hlen]
  · rw [Expression.compile_constant, hsome]
  · rw [Expression.compile_constant, hnone]

/-- C5, witness: the fold and no-fold branches at concrete arrays of
literal and variable elements. -/
theorem claim5_witness :
    ((Expression.Array (.cons (Expression.Number 1) (.cons (Expression.Number 2) .nil))
        ⟨0, 0⟩).compile_instructions dbNone procNone ⟨[], []⟩ =
      match Context.add_constant ⟨[], []⟩
          (Constant.Array (.cons (Constant.Scalar 1) (.cons (Constant.Scalar 2) .nil))) with
      | .error e => .error e
      | .ok (i, ctx2) => .ok ([Instruction.Push i], ctx2)) ∧
    ((Expression.Array (.cons (Expression.Variable "x" ⟨0, 0⟩) .nil)
        ⟨0, 0⟩).compile_instructions dbNone procNone ⟨[], []⟩ =
      match exprLoop dbNone procNone (.cons (Expression.Variable "x" ⟨0, 0⟩) .nil) ⟨[], []⟩ with
      | .error e => .error e
      | .ok (is, ctx2) =>
        match location_to_source procNone ⟨0, 0⟩ with
        | .error e => .error e
        | .ok si => .ok (is ++ [Instruction.MakeArray
            (ExprList.cons (Expression.Variable "x" ⟨0, 0⟩) .nil).length si], ctx2)) ∧
    (Expression.Array (.cons (Expression.Number 1) (.cons (Expression.Number 2) .nil))
        ⟨0, 0⟩).compile_constant dbNone procNone ⟨[], []⟩ =
      .ok (some (Constant.Array (.cons (Constant.Scalar 1) (.cons (Constant.Scalar 2) .nil))),
        ⟨[], []⟩) ∧
    (Expression.Array (.cons (Expression.Variable "x" ⟨0, 0⟩) .nil)
        ⟨0, 0⟩).compile_constant dbNone procNone ⟨[], []⟩ = .ok (none, ⟨[], []⟩) := by
  have h1 : (Expression.Array (.cons (Expression.Number 1) (.cons (Expression.Number 2) .nil))
      ⟨0, 0⟩).compile_constant dbNone procNone ⟨[], []⟩ =
      .ok (some (Constant.Array (.cons (Constant.Scalar 1) (.cons (Constant.Scalar 2) .nil))),
        ⟨[], []⟩) := by
    simp only [Expression.compile_constant, constFoldLoop]
  have h2 : (Expression.Array (.cons (Expression.Variable "x" ⟨0, 0⟩) .nil)
      ⟨0, 0⟩).compile_constant dbNone procNone ⟨[], []⟩ = .ok (none, ⟨[], []⟩) := by
    simp only [Expression.compile_constant, constFoldLoop]
  have h3 : constFoldLoop dbNone procNone
      (.cons (Expression.Number 1) (.cons (Expression.Number 2) .nil)) ⟨[], []⟩ =
      .ok (some (.cons (Constant.Scalar 1) (.cons (Constant.Scalar 2) .nil)), ⟨[], []⟩) := by
    simp only [Expression.compile_constant, constFoldLoop]
  have h4 : constFoldLoop dbNone procNone
      (.cons (Expression.Variable "x" ⟨0, 0⟩) .nil) ⟨[], []⟩ =
      .ok (none, ⟨[], []⟩) := by
    simp only [Expression.compile_constant, constFoldLoop]
  exact claim5_fold_split dbNone procNone _ _ _ _ _ h1 _ _ _ _ h2 (by decide)
    _ _ _ _ _ h3 _ _ _ _ h4

/-- C6: name interning case-folds before pooling and before the grammar
check: two spellings with the same ASCII lowering intern to the same
name-pool entry at the same index (the pool is unchanged by the second
interning), and when the grammar rejects the lowered form the error is
the invalid-name error carrying the original spelling, never the
lowered one. -/
theorem claim6_name_canonicalization (n1 n2 : String)
    (h12 : to_ascii_lowercase n1 = to_ascii_lowercase n2)
    (db1 : Database) (ctx1 ctx1' : Context) (i : Nat)
    (ha : Context.add_name db1 ctx1 n1 = .ok (i, ctx1'))
    (db2 : Database) (ctx2 : Context)
    (hinv : db2.is_valid_command (to_ascii_lowercase n1) = false) :
    Context.add_name db1 ctx1' n2 = .ok (i, ctx1') ∧
    Context.add_name db2 ctx2 n1 = .error (.err (CompileError.InvalidName n1)) := by
  constructor
  · rw [Context.add_name, try_normalize_name] at ha
    by_cases hv : db1.is_valid_command (to_ascii_lowercase n1)
    · simp only [hv, if_true] at ha
      cases hagi : add_or_get_index ctx1.names_cache (to_ascii_lowercase n1) with
      | error e2 => rw [hagi] at ha; cases ha
      | ok r =>
        obtain ⟨j, ns⟩ := r
        rw [hagi] at ha
        simp only [Except.ok.injEq, Prod.mk.injEq] at ha
        obtain ⟨rfl, rfl⟩ := ha
        obtain ⟨_, _, hagain, _, _⟩ := add_or_get_index_ok hagi
        rw [Context.add_name, try_normalize_name, ← h12]
        simp [hv, hagain]
    · simp only [hv, if_false] at ha
      cases ha
  · rw [Context.add_name, try_normalize_name]
    simp [hinv]

/-- C6, witness: the canonicalization applied to the spellings Foo and
foo, with a grammar accepting foo for the interning half and a grammar
rejecting everything for the error half. -/
theorem claim6_witness :
    Context.add_name ⟨fun s => s == "foo"⟩ ⟨[], ["foo"]⟩ "foo" = .ok (0, ⟨[], ["foo"]⟩) ∧
    Context.add_name dbNone ⟨[], []⟩ "Foo" =
      .error (.err (CompileError.InvalidName "Foo")) := by
  exact claim6_name_canonicalization "Foo" "foo" (by decide)
    ⟨fun s => s == "foo"⟩ ⟨[], []⟩ ⟨[], ["foo"]⟩ 0 (by rfl) dbNone ⟨[], []⟩ (by decide)

/-- C7: every successfully lowered statement emits an EndStatement
marker first; for the two assignment forms the right-hand expression is
lowered first, then the target name is interned, then the source info
of the statement span is resolved, and the matching assignment
instruction closes the sequence. -/
theorem claim7_stmt_emission (db : Database) (p : Processed) (s : Statement)
    (ctx : Context) (out : List Instruction × Context)
    (h : s.compile_instructions db p ctx = .ok out) :
    (∃ rest, out.1 = Instruction.EndStatement :: rest) ∧
    (∀ name e loc, s = Statement.AssignGlobal name e loc →
      ∃ eis ctxE i ctxN si,
        e.compile_instructions db p ctx = .ok (eis, ctxE) ∧
        Context.add_name db ctxE name = .ok (i, ctxN) ∧
        location_to_source p loc = .ok si ∧
        out = (Instruction.EndStatement :: (eis ++ [Instruction.AssignTo i si]), ctxN)) ∧
    (∀ name e loc, s = Statement.AssignLocal name e loc →
      ∃ eis ctxE i ctxN si,
        e.compile_instructions db p ctx = .ok (eis, ctxE) ∧
        Context.add_name db ctxE name = .ok (i, ctxN) ∧
        location_to_source p loc = .ok si ∧
        out = (Instruction.EndStatement :: (eis ++ [Instruction.AssignToLocal i si]), ctxN)) := by
  cases s with
  | AssignGlobal name e loc =>
    rw [Statement.compile_instructions] at h
    cases hE : e.compile_instructions db p ctx with
    | error e2 => rw [hE] at h; cases h
    | ok r =>
      obtain ⟨eis, ctxE⟩ := r
      rw [hE] at h
      dsimp only at h
      cases hN : Context.add_name db ctxE name with
      | error e2 => rw [hN] at h; cases h
      | ok rN =>
        obtain ⟨i, ctxN⟩ := rN
        rw [hN] at h
        dsimp only at h
        cases hS : location_to_source p loc with
        | error e2 => rw [hS] at h; cases h
        | ok si =>
          rw [hS] at h
          dsimp only at h
          simp only [Except.ok.injEq] at h
          subst h
          refine ⟨⟨_, rfl⟩, ?_, ?_⟩
          · intro name' e' loc' heq
            cases heq
            exact ⟨eis, ctxE, i, ctxN, si, hE, hN, hS, rfl⟩
          · intro name' e' loc' heq
            cases heq
  | AssignLocal name e loc =>
    rw [Statement.compile_instructions] at h
    cases hE : e.compile_instructions db p ctx with
    | error e2 => rw [hE] at h; cases h
    | ok r =>
      obtain ⟨eis, ctxE⟩ := r
      rw [hE] at h
      dsimp only at h
      cases hN : Context.add_name db ctxE name with
      | error e2 => rw [hN] at h; cases h
      | ok rN =>
        obtain ⟨i, ctxN⟩ := rN
        rw [hN] at h
        dsimp only at h
        cases hS : location_to_source p loc with
        | error e2 => rw [hS] at h; cases h
        | ok si =>
          rw [hS] at h
          dsimp only at h
          simp only [Except.ok.injEq] at h
          subst h
          refine ⟨⟨_, rfl⟩, ?_, ?_⟩
          · intro name' e' loc' heq
            cases heq
          · intro name' e' loc' heq
            cases heq
            exact ⟨eis, ctxE, i, ctxN, si, hE, hN, hS, rfl⟩
  | Expression e =>
    rw [Statement.compile_instructions] at h
    cases hE : e.compile_instructions db p ctx with
    | error e2 => rw [hE] at h; cases h
    | ok r =>
      obtain ⟨eis, ctxE⟩ := r
      rw [hE] at h
      dsimp only at h
      simp only [Except.ok.injEq] at h
      subst h
      refine ⟨⟨_, rfl⟩, ?_, ?_⟩
      · intro name' e' loc' heq
        cases heq
      · intro name' e' loc' heq
        cases heq

/-- C7, witness: the emission decomposition at a concrete global
assignment of the number 7. -/
theorem claim7_witness :
    (∃ rest, ([Instruction.EndStatement, Instruction.Push 0,
        Instruction.AssignTo 0 ⟨0, 0, 3⟩],
        (⟨[Constant.Scalar 7], ["x"]⟩ : Context)).1 =
      Instruction.EndStatement :: rest) ∧
    (∀ name e loc,
      Statement.AssignGlobal "x" (Expression.Number 7) ⟨0, 0⟩ =
        Statement.AssignGlobal name e loc →
      ∃ eis ctxE i ctxN si,
        e.compile_instructions ⟨fun s => s == "x"⟩ ⟨["f"], fun _ => some ("f", 3)⟩
          ⟨[], []⟩ = .ok (eis, ctxE) ∧
        Context.add_name ⟨fun s => s == "x"⟩ ctxE name = .ok (i, ctxN) ∧
        location_to_source ⟨["f"], fun _ => some ("f", 3)⟩ loc = .ok si ∧
        ([Instruction.EndStatement, Instruction.Push 0, Instruction.AssignTo 0 ⟨0, 0, 3⟩],
          (⟨[Constant.Scalar 7], ["x"]⟩ : Context)) =
          (Instruction.EndStatement :: (eis ++ [Instruction.AssignTo i si]), ctxN)) ∧
    (∀ name e loc,
      Statement.AssignGlobal "x" (Expression.Number 7) ⟨0, 0⟩ =
        Statement.AssignLocal name e loc →
      ∃ eis ctxE i ctxN si,
        e.compile_instructions ⟨fun s => s == "x"⟩ ⟨["f"], fun _ => some ("f", 3)⟩
          ⟨[], []⟩ = .ok (eis, ctxE) ∧
        Context.add_name ⟨fun s => s == "x"⟩ ctxE name = .ok (i, ctxN) ∧
        location_to_source ⟨["f"], fun _ => some ("f", 3)⟩ loc = .ok si ∧
        ([Instruction.EndStatement, Instruction.Push 0, Instruction.AssignTo 0 ⟨0, 0, 3⟩],
          (⟨[Constant.Scalar 7], ["x"]⟩ : Context)) =
          (Instruction.EndStatement :: (eis ++ [Instruction.AssignToLocal i si]), ctxN)) := by
  have h : (Statement.AssignGlobal "x" (Expression.Number 7)
      ⟨0, 0⟩).compile_instructions ⟨fun s => s == "x"⟩ ⟨["f"], fun _ => some ("f", 3)⟩
        ⟨[], []⟩ =
      .ok ([Instruction.EndStatement, Instruction.Push 0,
        Instruction.AssignTo 0 ⟨0, 0, 3⟩], ⟨[Constant.Scalar 7], ["x"]⟩) := by
    simp [Statement.compile_instructions, Expression.compile_instructions,
      Expression.compile_constant, Except.bind, Context.add_constant, Context.add_name,
      try_normalize_name, add_or_get_index, listPosition, location_to_source,
      show to_ascii_lowercase "x" = "x" from by decide]
  exact claim7_stmt_emission ⟨fun s => s == "x"⟩ ⟨["f"], fun _ => some ("f", 3)⟩ _ _ _ h

/-- C8, counterexample: compiling an empty program against a Processed
handle listing two source files succeeds with a file-name table holding
both names, although the compiled program contains no instruction at
all, so no file was referenced by any source lookup; the table is the
full source list of the handle, not the referenced set in
first-encounter order. -/
theorem claim8_counterexample :
    ∃ c, Statements.compile (Statements.mk .nil "src") dbNone
        ⟨["a", "b"], fun _ => none⟩ = .ok c ∧
      c.file_names = ["a", "b"] ∧
      c.constants_cache = [Constant.String "src", Constant.Code ⟨[], 0⟩] ∧
      (∀ ins, Constant.Code ins ∈ c.constants_cache → ins.contents = []) := by
  refine ⟨⟨1, true, [Constant.String "src", Constant.Code ⟨[], 0⟩], [], ["a", "b"]⟩,
    ?_, rfl, rfl, ?_⟩
  · simp [Statements.compile, Statements.compile_to_instructions, stmtsLoop,
      Context.add_constant, add_or_get_index, listPosition]
  · intro ins hmem
    simp only [List.mem_cons, List.not_mem_nil, or_false] at hmem
    rcases hmem with hmem | hmem
    · cases hmem
    · obtain rfl : ins = ⟨[], 0⟩ := by
        cases hmem
        rfl
      rfl

/-- C8, amended: the file-name table of a successful compile is the
full source list of the Processed handle, in the handle order,
regardless of which files the compile referenced; and every SourceInfo
produced by location_to_source carries a file_index that is a valid
index into this table, naming exactly the file the mapper returned for
the span offset. -/
theorem claim8_file_table (db : Database) (p : Processed) (s : Statements) (c : Compiled)
    (h : s.compile db p = .ok c)
    (loc : SRange) (si : SourceInfo) (path : String) (line : Nat)
    (hmap : p.mapping loc.start = some (path, line))
    (hsi : location_to_source p loc = .ok si) :
    c.file_names = p.sources ∧ si.file_index < c.file_names.length ∧
      c.file_names[si.file_index]? = some path := by
  have hfn : c.file_names = p.sources := by
    rw [Statements.compile] at h
    cases hcti : s.compile_to_instructions db p ⟨[], []⟩ with
    | error e => rw [hcti] at h; cases h
    | ok r =>
      obtain ⟨ins, ctx⟩ := r
      rw [hcti] at h
      simp only [Except.ok.injEq] at h
      subst h
      rfl
  rw [location_to_source, hmap] at hsi
  dsimp only at hsi
  cases hpos : listPosition path p.sources with
  | none => rw [hpos] at hsi; cases hsi
  | some i =>
    rw [hpos] at hsi
    dsimp only at hsi
    by_cases hi : i < 65536
    · rw [if_pos hi] at hsi
      simp only [Except.ok.injEq] at hsi
      subst hsi
      obtain ⟨hlt, hget⟩ := listPosition_get hpos
      exact ⟨hfn, by rw [hfn]; exact hlt, by rw [hfn]; exact hget⟩
    · rw [if_neg hi] at hsi
      cases hsi

/-- C8, witness: the amended table contract at a one-file mapper. -/
theorem claim8_witness :
    (⟨1, true, [Constant.String "", Constant.Code ⟨[], 0⟩], [], ["f"]⟩ :
        Compiled).file_names = (⟨["f"], fun _ => some ("f", 3)⟩ : Processed).sources ∧
    (⟨0, 0, 3⟩ : SourceInfo).file_index <
      (⟨1, true, [Constant.String "", Constant.Code ⟨[], 0⟩], [], ["f"]⟩ :
        Compiled).file_names.length ∧
    (⟨1, true, [Constant.String "", Constant.Code ⟨[], 0⟩], [], ["f"]⟩ :
        Compiled).file_names[(⟨0, 0, 3⟩ : SourceInfo).file_index]? = some "f" := by
  have h : (Statements.mk .nil "").compile dbNone ⟨["f"], fun _ => some ("f", 3)⟩ =
      .ok ⟨1, true, [Constant.String "", Constant.Code ⟨[], 0⟩], [], ["f"]⟩ := by
    simp [Statements.compile, Statements.compile_to_instructions, stmtsLoop,
      Context.add_constant, add_or_get_index, listPosition]
  exact claim8_file_table dbNone ⟨["f"], fun _ => some ("f", 3)⟩ _ _ h
    ⟨0, 0⟩ ⟨0, 0, 3⟩ "f" 3 (by rfl) (by rfl)

/-- C9: lowering a statements block, at the top level and for every
nested Code expression alike (the incoming context is arbitrary),
interns a String constant holding the source text of the block into the
shared constant pool and records its index as the source_string_index
of the produced Instructions, which therefore addresses that String
constant in the final pool of the block. -/
theorem claim9_source_string (db : Database) (p : Processed) (content : StmtList)
    (source : String) (ctx : Context) (ins : Instructions) (ctx' : Context)
    (h : (Statements.mk content source).compile_to_instructions db p ctx = .ok (ins, ctx')) :
    ∃ isList ctxMid,
      stmtsLoop db p content ctx = .ok (isList, ctxMid) ∧
      Context.add_constant ctxMid (Constant.String source) =
        .ok (ins.source_string_index, ctx') ∧
      ins.contents = isList ∧
      ctx'.constants_cache[ins.source_string_index]? = some (Constant.String source) ∧
      ins.source_string_index < ctx'.constants_cache.length := by
  rw [Statements.compile_to_instructions] at h
  cases hloop : stmtsLoop db p content ctx with
  | error e => rw [hloop] at h; cases h
  | ok r =>
    obtain ⟨isList, ctxMid⟩ := r
    rw [hloop] at h
    dsimp only at h
    cases hadd : Context.add_constant ctxMid (Constant.String source) with
    | error e => rw [hadd] at h; cases h
    | ok rA =>
      obtain ⟨idx, ctxF⟩ := rA
      rw [hadd] at h
      dsimp only at h
      simp only [Except.ok.injEq, Prod.mk.injEq] at h
      obtain ⟨rfl, rfl⟩ := h
      refine ⟨isList, ctxMid, rfl, hadd, rfl, ?_, ?_⟩
      · rw [Context.add_constant] at hadd
        cases hagi : add_or_get_index ctxMid.constants_cache (Constant.String source) with
        | error e => rw [hagi] at hadd; cases hadd
        | ok rB =>
          obtain ⟨j, cs⟩ := rB
          rw [hagi] at hadd
          simp only [Except.ok.injEq, Prod.mk.injEq] at hadd
          obtain ⟨rfl, rfl⟩ := hadd
          exact (add_or_get_index_ok hagi).1
      · rw [Context.add_constant] at hadd
        cases hagi : add_or_get_index ctxMid.constants_cache (Constant.String source) with
        | error e => rw [hagi] at hadd; cases hadd
        | ok rB =>
          obtain ⟨j, cs⟩ := rB
          rw [hagi] at hadd
          simp only [Except.ok.injEq, Prod.mk.injEq] at hadd
          obtain ⟨rfl, rfl⟩ := hadd
          exact (add_or_get_index_ok hagi).2.1

/-- C9, witness: the source-string interning at a concrete empty block
compiled against a nonempty incoming pool. -/
theorem claim9_witness :
    ∃ isList ctxMid,
      stmtsLoop dbNone procNone .nil ⟨[Constant.Scalar 9], []⟩ = .ok (isList, ctxMid) ∧
      Context.add_constant ctxMid (Constant.String "s") =
        .ok ((⟨[], 1⟩ : Instructions).source_string_index,
          ⟨[Constant.Scalar 9, Constant.String "s"], []⟩) ∧
      (⟨[], 1⟩ : Instructions).contents = isList ∧
      (⟨[Constant.Scalar 9, Constant.String "s"], []⟩ :
        Context).constants_cache[(⟨[], 1⟩ : Instructions).source_string_index]? =
          some (Constant.String "s") ∧
      (⟨[], 1⟩ : Instructions).source_string_index <
        (⟨[Constant.Scalar 9, Constant.String "s"], []⟩ :
          Context).constants_cache.length := by
  have h : (Statements.mk .nil "s").compile_to_instructions dbNone procNone
      ⟨[Constant.Scalar 9], []⟩ =
      .ok (⟨[], 1⟩, ⟨[Constant.Scalar 9, Constant.String "s"], []⟩) := by
    simp [Statements.compile_to_instructions, stmtsLoop, Context.add_constant,
      add_or_get_index, listPosition]
  exact claim9_source_string dbNone procNone .nil "s" ⟨[Constant.Scalar 9], []⟩ _ _ h
